import Mathlib

/-!
Verification of the dynamic-video-reframer core against its specification.

The Python sources are shallowly embedded:
* `src/utils/bounding_box.py` (`calculate_fixed_box`),
* `src/services/person_track_processor_service.py` (grouping, linking,
  persistence filtering, trajectory reconstruction),
* `src/pipeline.py` (the staged orchestrator, with its cache and the
  external detector stages supplied as an explicit environment).

Python `int` values become `ℤ`; exact rational arithmetic (`ℚ`) stands in
for IEEE floats, so `int(q)` becomes truncation toward zero and `np.ceil`
becomes the exact ceiling.  Python dicts with a fixed key set become
structures; a function that can return either a populated dict or the
empty dict `\x7b\x7d` returns an `Option`.
-/

namespace Reframer

/-- A `box_pixels` dict: absolute pixel rectangle with keys
`x`, `y`, `width`, `height` (values are Python ints). -/
structure Box where
  x : ℤ
  y : ℤ
  width : ℤ
  height : ℤ
deriving Repr, DecidableEq

/-- Right edge `x + width` of a box. -/
def boxRight (b : Box) : ℤ := b.x + b.width

/-- Bottom edge `y + height` of a box. -/
def boxBottom (b : Box) : ℤ := b.y + b.height

/-- Axis-aligned containment of `inner` inside `outer`. -/
def boxContains (outer inner : Box) : Prop :=
  outer.x ≤ inner.x ∧ outer.y ≤ inner.y ∧
    boxRight inner ≤ boxRight outer ∧ boxBottom inner ≤ boxBottom outer

instance (outer inner : Box) : Decidable (boxContains outer inner) := by
  unfold boxContains; infer_instance

/-- Embedding of `calculate_fixed_box` (src/utils/bounding_box.py).
`x_min = min(x_coords)`, `y_min = min(y_coords)`,
`x_max = max(x+w)`, `y_max = max(y+h)`; result
`\x7bx: x_min, y: y_min, width: x_max - x_min, height: y_max - y_min\x7d`.
The `if not boxes: return \x7b\x7d` branch is modelled by `none`
(the function returns the empty dict, it does not raise). -/
def calculate_fixed_box (boxes : List Box) : Option Box :=
  match boxes with
  | [] => none
  | b :: bs =>
      let x_min := (bs.map Box.x).foldl min b.x
      let y_min := (bs.map Box.y).foldl min b.y
      let x_max := (bs.map boxRight).foldl max (boxRight b)
      let y_max := (bs.map boxBottom).foldl max (boxBottom b)
      some ⟨x_min, y_min, x_max - x_min, y_max - y_min⟩

/-- The `EmptyInputError` named by the spec (`§4.1`, `§7`). -/
inductive EmptyInputError where
  | emptyInput
deriving Repr, DecidableEq

/-- Modelled from the spec: `§4.1` says `union` "Fails with `EmptyInputError`
on an empty sequence"; no such error exists anywhere in the source, so this
second definition follows the spec's words for comparison with
`calculate_fixed_box`. -/
def union_specced (boxes : List Box) : Except EmptyInputError Box :=
  match calculate_fixed_box boxes with
  | none => Except.error EmptyInputError.emptyInput
  | some u => Except.ok u

/-! Small fold lemmas used to reason about the Python `min(...)`/`max(...)`
calls inside `calculate_fixed_box`. -/

theorem foldl_min_le_init (l : List ℤ) (a : ℤ) : l.foldl min a ≤ a := by
  induction l generalizing a with
  | nil => simp
  | cons x xs ih => exact le_trans (ih (min a x)) (min_le_left a x)

theorem foldl_min_le_mem (l : List ℤ) (a : ℤ) (x : ℤ) (hx : x ∈ l) :
    l.foldl min a ≤ x := by
  induction l generalizing a with
  | nil => cases hx
  | cons y ys ih =>
      rcases List.mem_cons.mp hx with h | h
      · subst h
        exact le_trans (foldl_min_le_init ys (min a x)) (min_le_right a x)
      · exact ih (min a y) h

theorem foldl_min_mem (l : List ℤ) (a : ℤ) :
    l.foldl min a = a ∨ l.foldl min a ∈ l := by
  induction l generalizing a with
  | nil => left; rfl
  | cons x xs ih =>
      rcases ih (min a x) with h | h
      · rcases min_cases a x with ⟨he, _⟩ | ⟨he, _⟩
        · left; simpa [he] using h
        · right; simp only [List.foldl_cons]; rw [h, he]; exact List.mem_cons_self x xs
      · right; exact List.mem_cons_of_mem x h

theorem init_le_foldl_max (l : List ℤ) (a : ℤ) : a ≤ l.foldl max a := by
  induction l generalizing a with
  | nil => simp
  | cons x xs ih => exact le_trans (le_max_left a x) (ih (max a x))

theorem mem_le_foldl_max (l : List ℤ) (a : ℤ) (x : ℤ) (hx : x ∈ l) :
    x ≤ l.foldl max a := by
  induction l generalizing a with
  | nil => cases hx
  | cons y ys ih =>
      rcases List.mem_cons.mp hx with h | h
      · subst h
        exact le_trans (le_max_right a x) (init_le_foldl_max ys (max a x))
      · exact ih (max a y) h

theorem foldl_max_mem (l : List ℤ) (a : ℤ) :
    l.foldl max a = a ∨ l.foldl max a ∈ l := by
  induction l generalizing a with
  | nil => left; rfl
  | cons x xs ih =>
      rcases ih (max a x) with h | h
      · rcases max_cases a x with ⟨he, _⟩ | ⟨he, _⟩
        · left; simpa [he] using h
        · right; simp only [List.foldl_cons]; rw [h, he]; exact List.mem_cons_self x xs
      · right; exact List.mem_cons_of_mem x h

/-- C5: for every non-empty list of boxes with positive width and height,
`calculate_fixed_box` returns the minimal axis-aligned rectangle containing
every input box, with `x = min x_i`, `y = min y_i`,
`x + width = max (x_i + w_i)`, `y + height = max (y_i + h_i)`. -/
theorem calculate_fixed_box_minimal_union (boxes : List Box) (hne : boxes ≠ [])
    (hpos : ∀ b ∈ boxes, 0 < b.width ∧ 0 < b.height) :
    ∃ u, calculate_fixed_box boxes = some u ∧
      (∀ b ∈ boxes, boxContains u b) ∧
      (∀ v, (∀ b ∈ boxes, boxContains v b) → boxContains v u) ∧
      (u.x ∈ boxes.map Box.x ∧ ∀ b ∈ boxes, u.x ≤ b.x) ∧
      (u.y ∈ boxes.map Box.y ∧ ∀ b ∈ boxes, u.y ≤ b.y) ∧
      (u.x + u.width ∈ boxes.map boxRight ∧ ∀ b ∈ boxes, boxRight b ≤ u.x + u.width) ∧
      (u.y + u.height ∈ boxes.map boxBottom ∧ ∀ b ∈ boxes, boxBottom b ≤ u.y + u.height) := by
  match boxes, hne with
  | b :: bs, _ =>
    refine ⟨_, rfl, ?_⟩
    simp only [Box.mk.injEq]
    set xm := (bs.map Box.x).foldl min b.x with hxm
    set ym := (bs.map Box.y).foldl min b.y with hym
    set xM := (bs.map boxRight).foldl max (boxRight b) with hxM
    set yM := (bs.map boxBottom).foldl max (boxBottom b) with hyM
    have hx_le : ∀ c ∈ b :: bs, xm ≤ c.x := by
      intro c hc
      rcases List.mem_cons.mp hc with h | h
      · subst h; exact foldl_min_le_init _ _
      · exact foldl_min_le_mem _ _ _ (List.mem_map_of_mem Box.x h)
    have hy_le : ∀ c ∈ b :: bs, ym ≤ c.y := by
      intro c hc
      rcases List.mem_cons.mp hc with h | h
      · subst h; exact foldl_min_le_init _ _
      · exact foldl_min_le_mem _ _ _ (List.mem_map_of_mem Box.y h)
    have hr_le : ∀ c ∈ b :: bs, boxRight c ≤ xM := by
      intro c hc
      rcases List.mem_cons.mp hc with h | h
      · subst h; exact init_le_foldl_max _ _
      · exact mem_le_foldl_max _ _ _ (List.mem_map_of_mem boxRight h)
    have hb_le : ∀ c ∈ b :: bs, boxBottom c ≤ yM := by
      intro c hc
      rcases List.mem_cons.mp hc with h | h
      · subst h; exact init_le_foldl_max _ _
      · exact mem_le_foldl_max _ _ _ (List.mem_map_of_mem boxBottom h)
    have hx_mem : xm ∈ (b :: bs).map Box.x := by
      rcases foldl_min_mem (bs.map Box.x) b.x with h | h
      · rw [hxm, h]; exact List.mem_map_of_mem Box.x (List.mem_cons_self b bs)
      · simpa using Or.inr (by simpa using h)
    have hy_mem : ym ∈ (b :: bs).map Box.y := by
      rcases foldl_min_mem (bs.map Box.y) b.y with h | h
      · rw [hym, h]; exact List.mem_map_of_mem Box.y (List.mem_cons_self b bs)
      · simpa using Or.inr (by simpa using h)
    have hr_mem : xM ∈ (b :: bs).map boxRight := by
      rcases foldl_max_mem (bs.map boxRight) (boxRight b) with h | h
      · rw [hxM, h]; exact List.mem_map_of_mem boxRight (List.mem_cons_self b bs)
      · simpa using Or.inr (by simpa using h)
    have hbm_mem : yM ∈ (b :: bs).map boxBottom := by
      rcases foldl_max_mem (bs.map boxBottom) (boxBottom b) with h | h
      · rw [hyM, h]; exact List.mem_map_of_mem boxBottom (List.mem_cons_self b bs)
      · simpa using Or.inr (by simpa using h)
    refine ⟨?_, ?_, ?_, ?_, ?_, ?_⟩
    · intro c hc
      exact ⟨hx_le c hc, hy_le c hc,
        by simpa [boxRight] using hr_le c hc,
        by simpa [boxBottom] using hb_le c hc⟩
    · intro v hv
      obtain ⟨c1, hc1, hc1e⟩ := List.mem_map.mp hx_mem
      obtain ⟨c2, hc2, hc2e⟩ := List.mem_map.mp hy_mem
      obtain ⟨c3, hc3, hc3e⟩ := List.mem_map.mp hr_mem
      obtain ⟨c4, hc4, hc4e⟩ := List.mem_map.mp hbm_mem
      refine ⟨?_, ?_, ?_, ?_⟩
      · rw [← hc1e]; exact (hv c1 hc1).1
      · rw [← hc2e]; exact (hv c2 hc2).2.1
      · have h3 : boxRight c3 ≤ boxRight v := (hv c3 hc3).2.2.1
        rw [hc3e] at h3
        simp only [boxRight] at h3 ⊢
        omega
      · have h4 : boxBottom c4 ≤ boxBottom v := (hv c4 hc4).2.2.2
        rw [hc4e] at h4
        simp only [boxBottom] at h4 ⊢
        omega
    · exact ⟨hx_mem, hx_le⟩
    · exact ⟨hy_mem, hy_le⟩
    · refine ⟨by simpa using hr_mem, fun c hc => by simpa using hr_le c hc⟩
    · refine ⟨by simpa using hbm_mem, fun c hc => by simpa using hb_le c hc⟩

/-- Witness for C5 at the spec's own example (`§8`): boxes
(0,0,10,10) and (5,5,10,10). -/
theorem calculate_fixed_box_minimal_union_witness :
    ∃ u, calculate_fixed_box [⟨0, 0, 10, 10⟩, ⟨5, 5, 10, 10⟩] = some u ∧
      (∀ b ∈ [(⟨0, 0, 10, 10⟩ : Box), ⟨5, 5, 10, 10⟩], boxContains u b) ∧
      (∀ v, (∀ b ∈ [(⟨0, 0, 10, 10⟩ : Box), ⟨5, 5, 10, 10⟩], boxContains v b) → boxContains v u) ∧
      (u.x ∈ [(⟨0, 0, 10, 10⟩ : Box), ⟨5, 5, 10, 10⟩].map Box.x ∧
        ∀ b ∈ [(⟨0, 0, 10, 10⟩ : Box), ⟨5, 5, 10, 10⟩], u.x ≤ b.x) ∧
      (u.y ∈ [(⟨0, 0, 10, 10⟩ : Box), ⟨5, 5, 10, 10⟩].map Box.y ∧
        ∀ b ∈ [(⟨0, 0, 10, 10⟩ : Box), ⟨5, 5, 10, 10⟩], u.y ≤ b.y) ∧
      (u.x + u.width ∈ [(⟨0, 0, 10, 10⟩ : Box), ⟨5, 5, 10, 10⟩].map boxRight ∧
        ∀ b ∈ [(⟨0, 0, 10, 10⟩ : Box), ⟨5, 5, 10, 10⟩], boxRight b ≤ u.x + u.width) ∧
      (u.y + u.height ∈ [(⟨0, 0, 10, 10⟩ : Box), ⟨5, 5, 10, 10⟩].map boxBottom ∧
        ∀ b ∈ [(⟨0, 0, 10, 10⟩ : Box), ⟨5, 5, 10, 10⟩], boxBottom b ≤ u.y + u.height) :=
  calculate_fixed_box_minimal_union [⟨0, 0, 10, 10⟩, ⟨5, 5, 10, 10⟩]
    (by decide) (by decide)

/-- C2 counterexample: on the empty input, `calculate_fixed_box` returns the
empty dict (modelled as `none`) as an ordinary value — it does not fail —
whereas the spec-modelled union fails with `EmptyInputError`. -/
theorem calculate_fixed_box_empty_no_error :
    calculate_fixed_box [] = none ∧
      union_specced [] = Except.error EmptyInputError.emptyInput :=
  ⟨rfl, rfl⟩

/-- C2 (amended): for the empty sequence of boxes `calculate_fixed_box`
returns the empty dict `\x7b\x7d` (no error is raised), and for every
non-empty input it returns a populated box. -/
theorem calculate_fixed_box_empty_behavior (boxes : List Box) (hne : boxes ≠ []) :
    calculate_fixed_box [] = none ∧ (calculate_fixed_box boxes).isSome = true := by
  refine ⟨rfl, ?_⟩
  match boxes, hne with
  | b :: bs, _ => rfl

/-- Witness for C2 (amended) at a singleton input. -/
theorem calculate_fixed_box_empty_behavior_witness :
    calculate_fixed_box [] = none ∧
      (calculate_fixed_box [⟨1, 2, 3, 4⟩]).isSome = true :=
  calculate_fixed_box_empty_behavior [⟨1, 2, 3, 4⟩] (by decide)

/-! Embedding of the trajectory reconstructor
(`PersonTrackProcessorService._process_final_tracks`). -/

/-- One subject observation at one sampled frame (a detection dict with keys
`frame_number`, `box_pixels`, `confidence`). -/
structure Detection where
  frame_number : ℤ
  box_pixels : Box
  confidence : ℚ
deriving Repr, DecidableEq

/-- Helper for `intRange`: the list `[a, a+1, ..., a+n-1]`. -/
def intRangeAux (a : ℤ) : ℕ → List ℤ
  | 0 => []
  | n + 1 => a :: intRangeAux (a + 1) n

/-- Python `range(a, b)` over ints. -/
def intRange (a b : ℤ) : List ℤ := intRangeAux a (b - a).toNat

theorem length_intRangeAux (a : ℤ) (n : ℕ) : (intRangeAux a n).length = n := by
  induction n generalizing a with
  | zero => rfl
  | succ m ih => simp [intRangeAux, ih]

theorem length_intRange (a b : ℤ) : (intRange a b).length = (b - a).toNat :=
  length_intRangeAux a (b - a).toNat

theorem mem_intRangeAux (a x : ℤ) (n : ℕ) :
    x ∈ intRangeAux a n ↔ a ≤ x ∧ x < a + n := by
  induction n generalizing a with
  | zero => simp [intRangeAux]
  | succ m ih =>
      simp only [intRangeAux, List.mem_cons, ih]
      omega

theorem mem_intRange (a b x : ℤ) : x ∈ intRange a b ↔ a ≤ x ∧ x < b := by
  rw [intRange, mem_intRangeAux]
  omega

theorem intRange_eq_nil {a b : ℤ} (h : b ≤ a) : intRange a b = [] := by
  rw [intRange, Int.toNat_of_nonpos (by omega : b - a ≤ 0)]
  rfl

theorem intRangeAux_add (a : ℤ) (m n : ℕ) :
    intRangeAux a (m + n) = intRangeAux a m ++ intRangeAux (a + m) n := by
  induction m generalizing a with
  | zero => simp [intRangeAux]
  | succ k ih =>
      have hm : k + 1 + n = (k + n) + 1 := by omega
      rw [hm]
      simp only [intRangeAux, ih, List.cons_append]
      have : a + 1 + (k : ℤ) = a + ((k : ℤ) + 1) := by omega
      rw [this]
      norm_cast

theorem intRange_append {a b c : ℤ} (h1 : a ≤ b) (h2 : b ≤ c) :
    intRange a b ++ intRange b c = intRange a c := by
  have hsum : (c - a).toNat = (b - a).toNat + (c - b).toNat := by omega
  have hb : a + ((b - a).toNat : ℤ) = b := by omega
  rw [intRange, intRange, intRange, hsum, intRangeAux_add, hb]

theorem intRange_concat {a b : ℤ} (h : a ≤ b) :
    intRange a b ++ [b] = intRange a (b + 1) := by
  have hsing : intRange b (b + 1) = [b] := by
    have hone : (b + 1 - b).toNat = 1 := by omega
    rw [intRange, hone]
    rfl
  rw [← hsing]
  exact intRange_append h (by omega)

theorem pairwise_lt_intRangeAux (a : ℤ) (n : ℕ) :
    (intRangeAux a n).Pairwise (· < ·) := by
  induction n generalizing a with
  | zero => exact List.Pairwise.nil
  | succ m ih =>
      refine List.Pairwise.cons ?_ (ih (a + 1))
      intro x hx
      have := (mem_intRangeAux (a + 1) x m).mp hx
      omega

theorem pairwise_lt_intRange (a b : ℤ) : (intRange a b).Pairwise (· < ·) :=
  pairwise_lt_intRangeAux a (b - a).toNat

theorem pairwise_le_intRange (a b : ℤ) : (intRange a b).Pairwise (· ≤ ·) :=
  (pairwise_lt_intRange a b).imp le_of_lt

theorem nodup_intRange (a b : ℤ) : (intRange a b).Nodup :=
  (pairwise_lt_intRange a b).imp (fun h => ne_of_lt h)

/-- One entry of a `dynamic_track`: either a synthesized two-key dict
`\x7bframe_number, box_pixels\x7d` (interpolated or extrapolated), or the raw
measured detection dict appended by
`dynamic_track.append(measured_detections[-1])`. -/
inductive DynEntry where
  | synth (frame_number : ℤ) (box_pixels : Box)
  | measured (det : Detection)
deriving Repr, DecidableEq

/-- The `frame_number` value of a dynamic-track entry. -/
def DynEntry.frame : DynEntry → ℤ
  | .synth f _ => f
  | .measured d => d.frame_number

/-- The `box_pixels` value of a dynamic-track entry. -/
def DynEntry.box : DynEntry → Box
  | .synth _ b => b
  | .measured d => d.box_pixels

/-- One interpolated component.  The float expression
`(1 - alpha) * v0 + alpha * v1` with `alpha = (f - f0)/(f1 - f0)` has the
exact rational value `(v0*(f1 - f) + v1*(f - f0))/(f1 - f0)`; Python's
`int(...)` truncates it toward zero, which on this exact fraction
(positive denominator) is `Int.tdiv`. -/
def interpComponent (f0 f1 f v0 v1 : ℤ) : ℤ :=
  (v0 * (f1 - f) + v1 * (f - f0)).tdiv (f1 - f0)

/-- The interpolated `box_pixels` dict built by
`dict(zip(['x','y','width','height'], map(int, inter_box_coords)))`. -/
def interpBox (f0 f1 f : ℤ) (b0 b1 : Box) : Box :=
  ⟨interpComponent f0 f1 f b0.x b1.x,
   interpComponent f0 f1 f b0.y b1.y,
   interpComponent f0 f1 f b0.width b1.width,
   interpComponent f0 f1 f b0.height b1.height⟩

/-- The inner loop `for frame_num in range(start_det['frame_number'],
end_det['frame_number'])` of the interpolation. -/
def interpSegment (d0 d1 : Detection) : List DynEntry :=
  (intRange d0.frame_number d1.frame_number).map
    (fun f => DynEntry.synth f
      (interpBox d0.frame_number d1.frame_number f d0.box_pixels d1.box_pixels))

/-- The outer loop `for j in range(len(measured_detections) - 1)`:
one segment per consecutive pair of measured detections. -/
def interpSegments : List Detection → List DynEntry
  | d0 :: d1 :: rest => interpSegment d0 d1 ++ interpSegments (d1 :: rest)
  | _ => []

/-- Key comparison for `sorted(track['detections'], key=... frame_number)`. -/
def detLE (a b : Detection) : Prop := a.frame_number ≤ b.frame_number

instance : DecidableRel detLE := fun a b => by unfold detLE; infer_instance

instance : IsTotal Detection detLE := ⟨fun a b => le_total a.frame_number b.frame_number⟩

instance : IsTrans Detection detLE := ⟨fun _ _ _ h1 h2 => le_trans h1 h2⟩

/-- Key comparison for `sorted(dynamic_track, key=... frame_number)`. -/
def entryLE (a b : DynEntry) : Prop := a.frame ≤ b.frame

instance : DecidableRel entryLE := fun a b => by unfold entryLE; infer_instance

instance : IsTotal DynEntry entryLE := ⟨fun a b => le_total a.frame b.frame⟩

instance : IsTrans DynEntry entryLE := ⟨fun _ _ _ h1 h2 => le_trans h1 h2⟩

/-- The dynamic branch of `_process_final_tracks` for one track:
interpolate between consecutive measured keyframes, append the last
measured detection as-is, extrapolate to the scene bounds by holding the
first/last measured boxes, then sort by `frame_number` (Python's stable
sort, modelled by a stable insertion sort).  The source indexes
`measured_detections[-1]`, so `measured` is non-empty whenever this is
reached (tracks are created with one detection); on `[]` the result is
`[]`. -/
def dynamicTrack (start_frame end_frame : ℤ) (measured : List Detection) :
    List DynEntry :=
  match measured.head?, measured.getLast? with
  | some first, some last =>
      let withLast := interpSegments measured ++ [DynEntry.measured last]
      let pre := (intRange start_frame first.frame_number).map
        (fun f => DynEntry.synth f first.box_pixels)
      let post := (intRange (last.frame_number + 1) (end_frame + 1)).map
        (fun f => DynEntry.synth f last.box_pixels)
      List.insertionSort entryLE ((withLast ++ pre) ++ post)
  | _, _ => []

/-- The `output_modes` list, reduced to which of the two recognized mode
strings it contains. -/
structure OutputModes where
  fixed : Bool
  dynamic : Bool
deriving Repr, DecidableEq

/-- One per-track output dict of `_process_final_tracks`: `track_id` plus
the optional keys `fixed_box_pixels` and `dynamic_track` (each present iff
its mode was requested). -/
structure TrackOutput where
  track_id : ℕ
  fixed_box_pixels : Option (Option Box)
  dynamic_track : Option (List DynEntry)
deriving Repr, DecidableEq

/-- The body of `_process_final_tracks` for the i-th surviving track. -/
def processTrack (start_frame end_frame : ℤ) (modes : OutputModes) (i : ℕ)
    (detections : List Detection) : TrackOutput :=
  let measured := List.insertionSort detLE detections
  { track_id := i + 1
  , fixed_box_pixels :=
      if modes.fixed then some (calculate_fixed_box (measured.map Detection.box_pixels))
      else none
  , dynamic_track :=
      if modes.dynamic then some (dynamicTrack start_frame end_frame measured)
      else none }

/-- Embedding of `_process_final_tracks` over all surviving tracks. -/
def process_final_tracks (start_frame end_frame : ℤ) (modes : OutputModes)
    (tracks : List (List Detection)) : List TrackOutput :=
  tracks.enum.map (fun p => processTrack start_frame end_frame modes p.1 p.2)

/-! Coverage of the dynamic track (claim C4) and supporting lemmas. -/

theorem interpSegment_frames (d0 d1 : Detection) :
    (interpSegment d0 d1).map DynEntry.frame =
      intRange d0.frame_number d1.frame_number := by
  simp [interpSegment, List.map_map, Function.comp_def, DynEntry.frame]

theorem chain_head_le_getLast (l : List Detection) :
    ∀ d0 dk : Detection,
      l.Chain' (fun a b => a.frame_number < b.frame_number) →
      l.head? = some d0 → l.getLast? = some dk →
      d0.frame_number ≤ dk.frame_number := by
  induction l with
  | nil => intro d0 dk _ h0 _; cases h0
  | cons d rest ih =>
      intro d0 dk hchain h0 hk
      have hd : d = d0 := by simpa using h0
      subst hd
      cases rest with
      | nil =>
          have hdk : d = dk := by simpa using hk
          subst hdk
          exact le_refl _
      | cons r rs =>
          rw [List.getLast?_cons_cons] at hk
          obtain ⟨h01, hchain2⟩ := List.chain'_cons.mp hchain
          have hrec := ih r dk hchain2 rfl hk
          omega

theorem interpSegments_frames (l : List Detection) :
    ∀ d0 dk : Detection,
      l.Chain' (fun a b => a.frame_number < b.frame_number) →
      l.head? = some d0 → l.getLast? = some dk →
      (interpSegments l).map DynEntry.frame =
        intRange d0.frame_number dk.frame_number := by
  induction l with
  | nil => intro d0 dk _ h0 _; cases h0
  | cons d rest ih =>
      intro d0 dk hchain h0 hk
      have hd : d = d0 := by simpa using h0
      subst hd
      cases rest with
      | nil =>
          have hdk : d = dk := by simpa using hk
          subst hdk
          simp [interpSegments, intRange_eq_nil (le_refl d.frame_number)]
      | cons r rs =>
          rw [List.getLast?_cons_cons] at hk
          obtain ⟨h01, hchain2⟩ := List.chain'_cons.mp hchain
          have hrec := ih r dk hchain2 rfl hk
          have hlast := chain_head_le_getLast (r :: rs) r dk hchain2 rfl hk
          simp only [interpSegments, List.map_append, interpSegment_frames, hrec]
          exact intRange_append (le_of_lt h01) hlast

theorem dynamicTrack_frames_perm (s e : ℤ) (measured : List Detection)
    (d0 dk : Detection)
    (hchain : measured.Chain' (fun a b => a.frame_number < b.frame_number))
    (h0 : measured.head? = some d0) (hk : measured.getLast? = some dk)
    (hs : s ≤ d0.frame_number) (he : dk.frame_number ≤ e) :
    ((dynamicTrack s e measured).map DynEntry.frame).Perm (intRange s (e + 1)) := by
  have hf0k : d0.frame_number ≤ dk.frame_number :=
    chain_head_le_getLast measured d0 dk hchain h0 hk
  have hseg : (interpSegments measured).map DynEntry.frame =
      intRange d0.frame_number dk.frame_number :=
    interpSegments_frames measured d0 dk hchain h0 hk
  have hpre : ((intRange s d0.frame_number).map
        (fun f => DynEntry.synth f d0.box_pixels)).map DynEntry.frame =
      intRange s d0.frame_number := by
    simp [List.map_map, Function.comp_def, DynEntry.frame]
  have hpost : ((intRange (dk.frame_number + 1) (e + 1)).map
        (fun f => DynEntry.synth f dk.box_pixels)).map DynEntry.frame =
      intRange (dk.frame_number + 1) (e + 1) := by
    simp [List.map_map, Function.comp_def, DynEntry.frame]
  have hassemble :
      (((intRange d0.frame_number dk.frame_number ++ [dk.frame_number]) ++
          intRange s d0.frame_number) ++
        intRange (dk.frame_number + 1) (e + 1)).Perm (intRange s (e + 1)) := by
    rw [intRange_concat hf0k]
    refine (List.perm_append_comm.append_right _).trans ?_
    rw [List.append_assoc, intRange_append (by omega) (by omega),
      intRange_append hs (by omega)]
  simp only [dynamicTrack, h0, hk]
  refine ((List.perm_insertionSort entryLE _).map DynEntry.frame).trans ?_
  simpa only [List.map_append, List.map_cons, List.map_nil, hseg, hpre, hpost,
    DynEntry.frame] using hassemble

theorem dynamicTrack_frames_eq (s e : ℤ) (measured : List Detection)
    (d0 dk : Detection)
    (hchain : measured.Chain' (fun a b => a.frame_number < b.frame_number))
    (h0 : measured.head? = some d0) (hk : measured.getLast? = some dk)
    (hs : s ≤ d0.frame_number) (he : dk.frame_number ≤ e) :
    (dynamicTrack s e measured).map DynEntry.frame = intRange s (e + 1) := by
  have hperm := dynamicTrack_frames_perm s e measured d0 dk hchain h0 hk hs he
  have hsorted : List.Sorted entryLE (dynamicTrack s e measured) := by
    simp only [dynamicTrack, h0, hk]
    exact List.sorted_insertionSort entryLE _
  refine List.eq_of_perm_of_sorted hperm ?_ (pairwise_le_intRange s (e + 1))
  exact (List.pairwise_map).mpr hsorted

theorem sorted_measured_facts (dets : List Detection) (hne : dets ≠ [])
    (hnodup : (dets.map Detection.frame_number).Nodup) :
    ∃ d0 dk,
      (List.insertionSort detLE dets).head? = some d0 ∧
      (List.insertionSort detLE dets).getLast? = some dk ∧
      (List.insertionSort detLE dets).Chain'
        (fun a b => a.frame_number < b.frame_number) ∧
      d0 ∈ dets ∧ dk ∈ dets := by
  have hperm : (List.insertionSort detLE dets).Perm dets :=
    List.perm_insertionSort detLE dets
  have hne2 : List.insertionSort detLE dets ≠ [] := by
    intro h
    rw [h] at hperm
    exact hne hperm.nil_eq.symm
  obtain ⟨d0, rest, hcons⟩ := List.exists_cons_of_ne_nil hne2
  have hsorted : List.Sorted detLE (List.insertionSort detLE dets) :=
    List.sorted_insertionSort detLE dets
  have hnodup2 : ((List.insertionSort detLE dets).map Detection.frame_number).Nodup :=
    (hperm.map Detection.frame_number).symm.nodup hnodup
  have hne3 : (List.insertionSort detLE dets).map Detection.frame_number ≠ [] := by
    simp [hcons]
  have hchain : (List.insertionSort detLE dets).Chain'
      (fun a b => a.frame_number < b.frame_number) := by
    have hpne : (List.insertionSort detLE dets).Pairwise
        (fun a b => a.frame_number ≠ b.frame_number) :=
      (List.pairwise_map).mp hnodup2
    exact ((hsorted.and hpne).imp (fun h => lt_of_le_of_ne h.1 h.2)).chain'
  refine ⟨d0, (List.insertionSort detLE dets).getLast hne2, ?_, ?_, hchain, ?_, ?_⟩
  · rw [hcons]; rfl
  · exact List.getLast?_eq_getLast_of_ne_nil hne2
  · exact hperm.mem_iff.mp (by rw [hcons]; exact List.mem_cons_self _ _)
  · exact hperm.mem_iff.mp (List.getLast_mem hne2)

/-- C4: for every scene range and every non-empty detection list with
pairwise-distinct frame numbers inside the scene, the dynamic track has
exactly `end - start + 1` entries, its frame numbers are exactly the
integer frames of the scene in strictly increasing order, with no
duplicates or gaps. -/
theorem dynamic_track_coverage (s e : ℤ) (dets : List Detection)
    (modes : OutputModes) (i : ℕ) (hdyn : modes.dynamic = true)
    (hne : dets ≠ [])
    (hnodup : (dets.map Detection.frame_number).Nodup)
    (hin : ∀ d ∈ dets, s ≤ d.frame_number ∧ d.frame_number ≤ e) :
    ∃ dt, (processTrack s e modes i dets).dynamic_track = some dt ∧
      dt.length = (e - s + 1).toNat ∧
      dt.map DynEntry.frame = intRange s (e + 1) ∧
      (dt.map DynEntry.frame).Pairwise (· < ·) ∧
      (dt.map DynEntry.frame).Nodup ∧
      ∀ f : ℤ, f ∈ dt.map DynEntry.frame ↔ s ≤ f ∧ f ≤ e := by
  obtain ⟨d0, dk, h0, hk, hchain, hd0m, hdkm⟩ := sorted_measured_facts dets hne hnodup
  have hs : s ≤ d0.frame_number := (hin d0 hd0m).1
  have he : dk.frame_number ≤ e := (hin dk hdkm).2
  have heq := dynamicTrack_frames_eq s e (List.insertionSort detLE dets)
    d0 dk hchain h0 hk hs he
  refine ⟨dynamicTrack s e (List.insertionSort detLE dets), ?_, ?_, heq, ?_, ?_, ?_⟩
  · simp [processTrack, hdyn]
  · have hlen : (dynamicTrack s e (List.insertionSort detLE dets)).length =
        ((dynamicTrack s e (List.insertionSort detLE dets)).map DynEntry.frame).length :=
      (List.length_map _ _).symm
    rw [hlen, heq, length_intRange]
    omega
  · rw [heq]; exact pairwise_lt_intRange s (e + 1)
  · rw [heq]; exact nodup_intRange s (e + 1)
  · intro f
    rw [heq, mem_intRange]
    omega

/-- The end-to-end example of spec section 8: one subject detected at
frames 0, 5 and 9 of scene [0, 9]. -/
def exampleDetections : List Detection :=
  [⟨0, ⟨0, 0, 10, 10⟩, 1⟩, ⟨5, ⟨10, 10, 10, 10⟩, 1⟩, ⟨9, ⟨20, 20, 10, 10⟩, 1⟩]

/-- Witness for C4 at the spec's end-to-end example. -/
theorem dynamic_track_coverage_witness :
    ∃ dt, (processTrack 0 9 ⟨false, true⟩ 0 exampleDetections).dynamic_track = some dt ∧
      dt.length = ((9 : ℤ) - 0 + 1).toNat ∧
      dt.map DynEntry.frame = intRange 0 (9 + 1) ∧
      (dt.map DynEntry.frame).Pairwise (· < ·) ∧
      (dt.map DynEntry.frame).Nodup ∧
      ∀ f : ℤ, f ∈ dt.map DynEntry.frame ↔ 0 ≤ f ∧ f ≤ 9 :=
  dynamic_track_coverage 0 9 exampleDetections ⟨false, true⟩ 0 rfl
    (by decide) (by decide) (by decide)

/-! Shape of the dynamic-track entries (claim C10). -/

theorem mem_interpSegments_synth (l : List Detection) :
    ∀ dk : Detection,
      l.Chain' (fun a b => a.frame_number < b.frame_number) →
      l.getLast? = some dk →
      ∀ en ∈ interpSegments l,
        ∃ f b, en = DynEntry.synth f b ∧ f < dk.frame_number := by
  induction l with
  | nil =>
      intro dk _ _ en hen
      exact absurd hen (by simp [interpSegments])
  | cons d rest ih =>
      intro dk hchain hk en hen
      cases rest with
      | nil => exact absurd hen (by simp [interpSegments])
      | cons r rs =>
          rw [List.getLast?_cons_cons] at hk
          obtain ⟨h01, hchain2⟩ := List.chain'_cons.mp hchain
          have hrk := chain_head_le_getLast (r :: rs) r dk hchain2 rfl hk
          simp only [interpSegments, List.mem_append] at hen
          rcases hen with hen | hen
          · obtain ⟨f, hf, hfe⟩ := List.mem_map.mp hen
            have hfr := (mem_intRange _ _ f).mp hf
            exact ⟨f, _, hfe.symm, by omega⟩
          · exact ih dk hchain2 hk en hen

theorem chain_mem_le_getLast (l : List Detection) :
    ∀ dk : Detection,
      l.Chain' (fun a b => a.frame_number < b.frame_number) →
      l.getLast? = some dk →
      ∀ d ∈ l, d.frame_number ≤ dk.frame_number := by
  induction l with
  | nil => intro dk _ _ d hd; cases hd
  | cons a rest ih =>
      intro dk hchain hk d hd
      cases rest with
      | nil =>
          have ha : a = dk := by simpa using hk
          subst ha
          have : d = a := by simpa using hd
          subst this
          exact le_refl _
      | cons r rs =>
          rw [List.getLast?_cons_cons] at hk
          obtain ⟨h01, hchain2⟩ := List.chain'_cons.mp hchain
          rcases List.mem_cons.mp hd with h | h
          · subst h
            have hrk := chain_head_le_getLast (r :: rs) r dk hchain2 rfl hk
            omega
          · exact ih dk hchain2 hk d h

theorem dynamicTrack_entries (s e : ℤ) (measured : List Detection)
    (d0 dk : Detection)
    (hchain : measured.Chain' (fun a b => a.frame_number < b.frame_number))
    (h0 : measured.head? = some d0) (hk : measured.getLast? = some dk) :
    DynEntry.measured dk ∈ dynamicTrack s e measured ∧
      ∀ en ∈ dynamicTrack s e measured,
        (en = DynEntry.measured dk ∨ ∃ f b, en = DynEntry.synth f b) ∧
        (en.frame = dk.frame_number → en = DynEntry.measured dk) := by
  have hf0k : d0.frame_number ≤ dk.frame_number :=
    chain_head_le_getLast measured d0 dk hchain h0 hk
  have hperm : (dynamicTrack s e measured).Perm
      ((interpSegments measured ++ [DynEntry.measured dk] ++
          (intRange s d0.frame_number).map (fun f => DynEntry.synth f d0.box_pixels)) ++
        (intRange (dk.frame_number + 1) (e + 1)).map
          (fun f => DynEntry.synth f dk.box_pixels)) := by
    simp only [dynamicTrack, h0, hk]
    exact List.perm_insertionSort entryLE _
  constructor
  · rw [hperm.mem_iff]
    simp
  · intro en hen
    rw [hperm.mem_iff] at hen
    simp only [List.mem_append, List.mem_singleton, List.mem_map] at hen
    rcases hen with ((hseg | hlast) | hpre) | hpost
    · obtain ⟨f, b, hfe, hflt⟩ :=
        mem_interpSegments_synth measured dk hchain hk en hseg
      subst hfe
      exact ⟨Or.inr ⟨f, b, rfl⟩, fun hfr => absurd hfr (by simp [DynEntry.frame]; omega)⟩
    · subst hlast
      exact ⟨Or.inl rfl, fun _ => rfl⟩
    · obtain ⟨f, hf, hfe⟩ := hpre
      have hfr := (mem_intRange _ _ f).mp hf
      subst hfe
      exact ⟨Or.inr ⟨f, _, rfl⟩, fun hfr2 => absurd hfr2 (by simp [DynEntry.frame]; omega)⟩
    · obtain ⟨f, hf, hfe⟩ := hpost
      have hfr := (mem_intRange _ _ f).mp hf
      subst hfe
      exact ⟨Or.inr ⟨f, _, rfl⟩, fun hfr2 => absurd hfr2 (by simp [DynEntry.frame]; omega)⟩

/-- C10: in dynamic mode the entry at the last measured detection's frame is
the input detection record itself (hence carries `confidence`), and every
other (interpolated or extrapolated) entry is a synthesized dict with
exactly the two fields `frame_number` and `box_pixels`. -/
theorem dynamic_track_last_entry (s e : ℤ) (dets : List Detection)
    (modes : OutputModes) (i : ℕ) (hdyn : modes.dynamic = true)
    (hne : dets ≠ [])
    (hnodup : (dets.map Detection.frame_number).Nodup)
    (hin : ∀ d ∈ dets, s ≤ d.frame_number ∧ d.frame_number ≤ e) :
    ∃ dt dk, (processTrack s e modes i dets).dynamic_track = some dt ∧
      dk ∈ dets ∧ (∀ d ∈ dets, d.frame_number ≤ dk.frame_number) ∧
      DynEntry.measured dk ∈ dt ∧
      (∀ en ∈ dt, en.frame = dk.frame_number → en = DynEntry.measured dk) ∧
      (∀ en ∈ dt, en ≠ DynEntry.measured dk → ∃ f b, en = DynEntry.synth f b) := by
  obtain ⟨d0, dk, h0, hk, hchain, hd0m, hdkm⟩ := sorted_measured_facts dets hne hnodup
  obtain ⟨hmem, hcls⟩ :=
    dynamicTrack_entries s e (List.insertionSort detLE dets) d0 dk hchain h0 hk
  refine ⟨dynamicTrack s e (List.insertionSort detLE dets), dk, ?_, hdkm, ?_, hmem, ?_, ?_⟩
  · simp [processTrack, hdyn]
  · intro d hd
    exact chain_mem_le_getLast (List.insertionSort detLE dets) dk hchain hk d
      ((List.perm_insertionSort detLE dets).mem_iff.mpr hd)
  · intro en hen hfr
    exact (hcls en hen).2 hfr
  · intro en hen hne2
    rcases (hcls en hen).1 with h | h
    · exact absurd h hne2
    · exact h

/-- Witness for C10 at the spec's end-to-end example: the last measured
detection (frame 9) is the one carried verbatim. -/
theorem dynamic_track_last_entry_witness :
    ∃ dt dk,
      (processTrack 0 9 ⟨false, true⟩ 0 exampleDetections).dynamic_track = some dt ∧
      dk ∈ exampleDetections ∧
      (∀ d ∈ exampleDetections, d.frame_number ≤ dk.frame_number) ∧
      DynEntry.measured dk ∈ dt ∧
      (∀ en ∈ dt, en.frame = dk.frame_number → en = DynEntry.measured dk) ∧
      (∀ en ∈ dt, en ≠ DynEntry.measured dk → ∃ f b, en = DynEntry.synth f b) :=
  dynamic_track_last_entry 0 9 exampleDetections ⟨false, true⟩ 0 rfl
    (by decide) (by decide) (by decide)

/-! Numeric semantics of the interpolation (claim C3).  The source applies
Python `int(...)` to each float component, i.e. truncation toward zero,
not rounding to nearest. -/

/-- Python `int()` applied to an exact rational value: truncation toward
zero. -/
def pyTrunc (q : ℚ) : ℤ := if 0 ≤ q then ⌊q⌋ else ⌈q⌉

/-- The interpolation coefficient
`alpha = (frame_num - f0) / (f1 - f0)` of the source. -/
def alphaOf (f0 f1 f : ℤ) : ℚ := ((f : ℚ) - (f0 : ℚ)) / ((f1 : ℚ) - (f0 : ℚ))

theorem tdiv_eq_pyTrunc (n d : ℤ) (hd : 0 < d) :
    n.tdiv d = pyTrunc ((n : ℚ) / (d : ℚ)) := by
  have hdq : (0 : ℚ) < (d : ℚ) := by exact_mod_cast hd
  have hfloor : ∀ m : ℤ, 0 ≤ m → ⌊(m : ℚ) / (d : ℚ)⌋ = m / d := by
    intro m _
    have hd2 : ((d.toNat : ℕ) : ℤ) = d := Int.toNat_of_nonneg hd.le
    have hfl := Rat.floor_intCast_div_natCast m d.toNat
    rw [hd2] at hfl
    have hcast : ((d.toNat : ℕ) : ℚ) = (d : ℚ) := by
      exact_mod_cast congrArg (fun z : ℤ => (z : ℚ)) hd2
    rw [← hcast]
    exact hfl
  rcases le_or_lt 0 n with hn | hn
  · have hq : 0 ≤ (n : ℚ) / (d : ℚ) :=
      div_nonneg (by exact_mod_cast hn) hdq.le
    rw [pyTrunc, if_pos hq, hfloor n hn]
    exact Int.tdiv_eq_ediv hn hd.le
  · have hq : ¬ 0 ≤ (n : ℚ) / (d : ℚ) := by
      rw [not_le]
      exact div_neg_of_neg_of_pos (by exact_mod_cast hn) hdq
    rw [pyTrunc, if_neg hq]
    have hceil : ⌈(n : ℚ) / (d : ℚ)⌉ = -⌊((-n : ℤ) : ℚ) / (d : ℚ)⌋ := by
      push_cast
      rw [neg_div, Int.floor_neg, neg_neg]
    have htd : n.tdiv d = -((-n).tdiv d) := by
      rw [Int.neg_tdiv, neg_neg]
    rw [hceil, hfloor (-n) (by omega), htd, Int.tdiv_eq_ediv (by omega) hd.le]

/-- Bridge between the integer embedding of one interpolated component and
the source's float expression `int((1 - alpha) * v0 + alpha * v1)`
evaluated exactly. -/
theorem interpComponent_eq_pyTrunc (f0 f1 f v0 v1 : ℤ) (h : f0 < f1) :
    interpComponent f0 f1 f v0 v1 =
      pyTrunc ((1 - alphaOf f0 f1 f) * (v0 : ℚ) + alphaOf f0 f1 f * (v1 : ℚ)) := by
  have hne : ((f1 : ℚ) - (f0 : ℚ)) ≠ 0 := by
    have : ((f1 - f0 : ℤ) : ℚ) ≠ 0 := by
      exact_mod_cast sub_ne_zero.mpr (by omega : f1 ≠ f0)
    push_cast at this
    exact this
  have hval : (1 - alphaOf f0 f1 f) * (v0 : ℚ) + alphaOf f0 f1 f * (v1 : ℚ) =
      (((v0 * (f1 - f) + v1 * (f - f0)) : ℤ) : ℚ) / (((f1 - f0 : ℤ)) : ℚ) := by
    rw [alphaOf]
    push_cast
    field_simp
    ring
  rw [hval, interpComponent]
  exact tdiv_eq_pyTrunc _ _ (by omega)

theorem interpSegment_subset_interpSegments :
    ∀ (l1 : List Detection) (d0 d1 : Detection) (l2 : List Detection),
      ∀ en ∈ interpSegment d0 d1, en ∈ interpSegments (l1 ++ d0 :: d1 :: l2)
  | [], d0, d1, l2, en, hen => by
      simp only [List.nil_append, interpSegments, List.mem_append]
      exact Or.inl hen
  | [a], d0, d1, l2, en, hen => by
      simp only [List.cons_append, List.nil_append, interpSegments, List.mem_append]
      right
      left
      exact hen
  | a :: b :: l1, d0, d1, l2, en, hen => by
      have ih := interpSegment_subset_interpSegments (b :: l1) d0 d1 l2 en hen
      simp only [List.cons_append] at ih ⊢
      simp only [interpSegments, List.mem_append]
      exact Or.inr ih

theorem chain'_rel_of_split {R : Detection → Detection → Prop} :
    ∀ (l1 : List Detection) {l2 : List Detection} {a b : Detection},
      (l1 ++ a :: b :: l2).Chain' R → R a b
  | [], _, _, _, h => (List.chain'_cons.mp h).1
  | _ :: l1, _, _, _, h => chain'_rel_of_split l1 h.tail

/-- C3 (amended): in dynamic mode, for consecutive measured detections at
frames `f0 < f1` and any frame `f0 ≤ f < f1`, each of the four emitted box
components equals the linear interpolant `(1-alpha)*v0 + alpha*v1`
truncated toward zero by Python `int(...)` — not rounded to nearest. -/
theorem interp_entries_truncate (s e : ℤ) (dets : List Detection)
    (modes : OutputModes) (i : ℕ) (hdyn : modes.dynamic = true)
    (hne : dets ≠ [])
    (hnodup : (dets.map Detection.frame_number).Nodup)
    (hin : ∀ d ∈ dets, s ≤ d.frame_number ∧ d.frame_number ≤ e)
    (l1 l2 : List Detection) (d0 d1 : Detection)
    (hsplit : List.insertionSort detLE dets = l1 ++ d0 :: d1 :: l2)
    (f : ℤ) (hf0 : d0.frame_number ≤ f) (hf1 : f < d1.frame_number) :
    ∃ dt, (processTrack s e modes i dets).dynamic_track = some dt ∧
      DynEntry.synth f (interpBox d0.frame_number d1.frame_number f
        d0.box_pixels d1.box_pixels) ∈ dt ∧
      ∀ en ∈ dt, en.frame = f →
        en.box.x = pyTrunc ((1 - alphaOf d0.frame_number d1.frame_number f) *
            (d0.box_pixels.x : ℚ) +
          alphaOf d0.frame_number d1.frame_number f * (d1.box_pixels.x : ℚ)) ∧
        en.box.y = pyTrunc ((1 - alphaOf d0.frame_number d1.frame_number f) *
            (d0.box_pixels.y : ℚ) +
          alphaOf d0.frame_number d1.frame_number f * (d1.box_pixels.y : ℚ)) ∧
        en.box.width = pyTrunc ((1 - alphaOf d0.frame_number d1.frame_number f) *
            (d0.box_pixels.width : ℚ) +
          alphaOf d0.frame_number d1.frame_number f * (d1.box_pixels.width : ℚ)) ∧
        en.box.height = pyTrunc ((1 - alphaOf d0.frame_number d1.frame_number f) *
            (d0.box_pixels.height : ℚ) +
          alphaOf d0.frame_number d1.frame_number f * (d1.box_pixels.height : ℚ)) := by
  obtain ⟨da, dk, h0, hk, hchain, hdam, hdkm⟩ := sorted_measured_facts dets hne hnodup
  have hs : s ≤ da.frame_number := (hin da hdam).1
  have he : dk.frame_number ≤ e := (hin dk hdkm).2
  have hframes := dynamicTrack_frames_eq s e (List.insertionSort detLE dets)
    da dk hchain h0 hk hs he
  have h01 : d0.frame_number < d1.frame_number := by
    have := chain'_rel_of_split l1 (hsplit ▸ hchain)
    exact this
  have hcandseg : DynEntry.synth f (interpBox d0.frame_number d1.frame_number f
      d0.box_pixels d1.box_pixels) ∈ interpSegment d0 d1 := by
    rw [interpSegment]
    exact List.mem_map_of_mem _ ((mem_intRange _ _ f).mpr ⟨hf0, hf1⟩)
  have hcandsegs : DynEntry.synth f (interpBox d0.frame_number d1.frame_number f
      d0.box_pixels d1.box_pixels) ∈ interpSegments (List.insertionSort detLE dets) := by
    rw [hsplit]
    exact interpSegment_subset_interpSegments l1 d0 d1 l2 _ hcandseg
  have hperm : (dynamicTrack s e (List.insertionSort detLE dets)).Perm
      ((interpSegments (List.insertionSort detLE dets) ++ [DynEntry.measured dk] ++
          (intRange s da.frame_number).map (fun g => DynEntry.synth g da.box_pixels)) ++
        (intRange (dk.frame_number + 1) (e + 1)).map
          (fun g => DynEntry.synth g dk.box_pixels)) := by
    simp only [dynamicTrack, h0, hk]
    exact List.perm_insertionSort entryLE _
  have hcand : DynEntry.synth f (interpBox d0.frame_number d1.frame_number f
      d0.box_pixels d1.box_pixels) ∈ dynamicTrack s e (List.insertionSort detLE dets) := by
    rw [hperm.mem_iff]
    simp only [List.mem_append]
    exact Or.inl (Or.inl (Or.inl hcandsegs))
  refine ⟨dynamicTrack s e (List.insertionSort detLE dets), by simp [processTrack, hdyn],
    hcand, ?_⟩
  intro en hen hfr
  have hnodup2 : ((dynamicTrack s e (List.insertionSort detLE dets)).map
      DynEntry.frame).Nodup := by
    rw [hframes]
    exact nodup_intRange s (e + 1)
  have heq : en = DynEntry.synth f (interpBox d0.frame_number d1.frame_number f
      d0.box_pixels d1.box_pixels) := by
    refine List.inj_on_of_nodup_map hnodup2 hen hcand ?_
    exact hfr
  rw [heq]
  simp only [DynEntry.box, interpBox]
  exact ⟨interpComponent_eq_pyTrunc _ _ _ _ _ h01,
    interpComponent_eq_pyTrunc _ _ _ _ _ h01,
    interpComponent_eq_pyTrunc _ _ _ _ _ h01,
    interpComponent_eq_pyTrunc _ _ _ _ _ h01⟩

/-- Input for the rounding analysis: the x component goes 0 to 7 across
frames 0..4, so the interpolant at frame 1 is 7/4 = 1.75. -/
def cxDetections : List Detection :=
  [⟨0, ⟨0, 0, 10, 10⟩, 1⟩, ⟨4, ⟨7, 0, 10, 10⟩, 1⟩]

/-- Witness for C3 (amended) at `cxDetections`, frame 1. -/
theorem interp_entries_truncate_witness :
    ∃ dt, (processTrack 0 4 ⟨false, true⟩ 0 cxDetections).dynamic_track = some dt ∧
      DynEntry.synth 1 (interpBox 0 4 1 ⟨0, 0, 10, 10⟩ ⟨7, 0, 10, 10⟩) ∈ dt ∧
      ∀ en ∈ dt, en.frame = 1 →
        en.box.x = pyTrunc ((1 - alphaOf 0 4 1) * ((0 : ℤ) : ℚ) +
          alphaOf 0 4 1 * ((7 : ℤ) : ℚ)) ∧
        en.box.y = pyTrunc ((1 - alphaOf 0 4 1) * ((0 : ℤ) : ℚ) +
          alphaOf 0 4 1 * ((0 : ℤ) : ℚ)) ∧
        en.box.width = pyTrunc ((1 - alphaOf 0 4 1) * ((10 : ℤ) : ℚ) +
          alphaOf 0 4 1 * ((10 : ℤ) : ℚ)) ∧
        en.box.height = pyTrunc ((1 - alphaOf 0 4 1) * ((10 : ℤ) : ℚ) +
          alphaOf 0 4 1 * ((10 : ℤ) : ℚ)) :=
  interp_entries_truncate 0 4 cxDetections ⟨false, true⟩ 0 rfl
    (by decide) (by decide) (by decide)
    [] [] ⟨0, ⟨0, 0, 10, 10⟩, 1⟩ ⟨4, ⟨7, 0, 10, 10⟩, 1⟩ (by decide)
    1 (by decide) (by decide)

/-- C3 counterexample: at frame 1 of `cxDetections` the code emits
x = 1 (truncation of 1.75), whereas rounding `(1-alpha)*v0 + alpha*v1`
to the nearest integer gives 2. -/
theorem interp_rounding_cx :
    (∃ dt, (processTrack 0 4 ⟨false, true⟩ 0 cxDetections).dynamic_track = some dt ∧
        DynEntry.synth 1 ⟨1, 0, 10, 10⟩ ∈ dt ∧
        dt.filter (fun en => en.frame == 1) = [DynEntry.synth 1 ⟨1, 0, 10, 10⟩]) ∧
      round ((1 - alphaOf 0 4 1) * ((0 : ℤ) : ℚ) + alphaOf 0 4 1 * ((7 : ℤ) : ℚ)) = 2 ∧
      (1 : ℤ) ≠ 2 := by
  refine ⟨⟨_, rfl, by decide, by decide⟩, ?_, by decide⟩
  norm_num [alphaOf, round_eq]

/-! Embedding of the linker and the persistence filter
(`PersonTrackProcessorService._link_detections_into_tracks`, `run` lines
43-44, `_filter_tracks`).  Float quantities (centers, sizes, the distance
threshold factor, the persistence threshold) are modelled as exact
rationals. -/

/-- State of one candidate track during linking (the track dict with its
`detections`, `last_center` and `last_size` entries). -/
structure TrackState where
  detections : List Detection
  last_center : ℚ × ℚ
  last_size : ℚ
deriving Repr, DecidableEq

/-- The computation `min_hits = np.ceil(total_sampled_frames *
self.min_persistence_ratio)` of `run` (line 43); `np.ceil` of the exact
product, an integer-valued float, modelled as the integer ceiling. -/
def min_hits (total_sampled_frames : ℕ) (rho : ℚ) : ℤ :=
  ⌈(total_sampled_frames : ℚ) * rho⌉

/-- Embedding of `_filter_tracks`: keep the tracks with
`len(track['detections']) >= min_hits`. -/
def filter_tracks (tracks : List TrackState) (minHits : ℤ) : List TrackState :=
  tracks.filter (fun t => decide (minHits ≤ (t.detections.length : ℤ)))

/-- C6: a track with `k` detections is kept by the persistence filter iff
`k ≥ ceil(total_sampled_frames * min_persistence_ratio)`; in the boundary
cases, `k = min_hits` is kept and `k = min_hits - 1` is dropped. -/
theorem persistence_gate (tracks : List TrackState) (t : TrackState)
    (n : ℕ) (rho : ℚ) (hr0 : 0 < rho) (hr1 : rho ≤ 1) :
    (t ∈ filter_tracks tracks (min_hits n rho) ↔
      t ∈ tracks ∧ ⌈(n : ℚ) * rho⌉ ≤ (t.detections.length : ℤ)) ∧
    ((t.detections.length : ℤ) = min_hits n rho →
      (t ∈ filter_tracks tracks (min_hits n rho) ↔ t ∈ tracks)) ∧
    ((t.detections.length : ℤ) = min_hits n rho - 1 →
      t ∉ filter_tracks tracks (min_hits n rho)) := by
  have hmem : t ∈ filter_tracks tracks (min_hits n rho) ↔
      t ∈ tracks ∧ min_hits n rho ≤ (t.detections.length : ℤ) := by
    rw [filter_tracks, List.mem_filter, decide_eq_true_eq]
  refine ⟨hmem, ?_, ?_⟩
  · intro hk
    rw [hmem, hk]
    simp
  · intro hk
    rw [hmem, hk]
    intro hc
    omega

/-- Witness for C6: three sampled frames, threshold 2/5, so
`min_hits = ceil(6/5) = 2`; a two-detection track passes. -/
theorem persistence_gate_witness :
    (⟨[⟨0, ⟨0, 0, 1, 1⟩, 1⟩, ⟨5, ⟨0, 0, 1, 1⟩, 1⟩], (0, 0), 1⟩ ∈
        filter_tracks [⟨[⟨0, ⟨0, 0, 1, 1⟩, 1⟩, ⟨5, ⟨0, 0, 1, 1⟩, 1⟩], (0, 0), 1⟩]
          (min_hits 3 (2 / 5)) ↔
      (⟨[⟨0, ⟨0, 0, 1, 1⟩, 1⟩, ⟨5, ⟨0, 0, 1, 1⟩, 1⟩], (0, 0), 1⟩ : TrackState) ∈
          [(⟨[⟨0, ⟨0, 0, 1, 1⟩, 1⟩, ⟨5, ⟨0, 0, 1, 1⟩, 1⟩], (0, 0), 1⟩ : TrackState)] ∧
        ⌈((3 : ℕ) : ℚ) * (2 / 5)⌉ ≤
          ((⟨[⟨0, ⟨0, 0, 1, 1⟩, 1⟩, ⟨5, ⟨0, 0, 1, 1⟩, 1⟩], (0, 0), 1⟩ :
            TrackState).detections.length : ℤ)) ∧
    (((⟨[⟨0, ⟨0, 0, 1, 1⟩, 1⟩, ⟨5, ⟨0, 0, 1, 1⟩, 1⟩], (0, 0), 1⟩ :
          TrackState).detections.length : ℤ) = min_hits 3 (2 / 5) →
      (⟨[⟨0, ⟨0, 0, 1, 1⟩, 1⟩, ⟨5, ⟨0, 0, 1, 1⟩, 1⟩], (0, 0), 1⟩ ∈
          filter_tracks [⟨[⟨0, ⟨0, 0, 1, 1⟩, 1⟩, ⟨5, ⟨0, 0, 1, 1⟩, 1⟩], (0, 0), 1⟩]
            (min_hits 3 (2 / 5)) ↔
        (⟨[⟨0, ⟨0, 0, 1, 1⟩, 1⟩, ⟨5, ⟨0, 0, 1, 1⟩, 1⟩], (0, 0), 1⟩ : TrackState) ∈
          [(⟨[⟨0, ⟨0, 0, 1, 1⟩, 1⟩, ⟨5, ⟨0, 0, 1, 1⟩, 1⟩], (0, 0), 1⟩ : TrackState)])) ∧
    (((⟨[⟨0, ⟨0, 0, 1, 1⟩, 1⟩, ⟨5, ⟨0, 0, 1, 1⟩, 1⟩], (0, 0), 1⟩ :
          TrackState).detections.length : ℤ) = min_hits 3 (2 / 5) - 1 →
      (⟨[⟨0, ⟨0, 0, 1, 1⟩, 1⟩, ⟨5, ⟨0, 0, 1, 1⟩, 1⟩], (0, 0), 1⟩ : TrackState) ∉
        filter_tracks [⟨[⟨0, ⟨0, 0, 1, 1⟩, 1⟩, ⟨5, ⟨0, 0, 1, 1⟩, 1⟩], (0, 0), 1⟩]
          (min_hits 3 (2 / 5))) :=
  persistence_gate [⟨[⟨0, ⟨0, 0, 1, 1⟩, 1⟩, ⟨5, ⟨0, 0, 1, 1⟩, 1⟩], (0, 0), 1⟩]
    ⟨[⟨0, ⟨0, 0, 1, 1⟩, 1⟩, ⟨5, ⟨0, 0, 1, 1⟩, 1⟩], (0, 0), 1⟩ 3 (2 / 5)
    (by norm_num) (by norm_num)

/-- Center of a detection box, as computed for `det_centers`:
`(x + width/2, y + height/2)`. -/
def detCenter (d : Detection) : ℚ × ℚ :=
  ((d.box_pixels.x : ℚ) + (d.box_pixels.width : ℚ) / 2,
   (d.box_pixels.y : ℚ) + (d.box_pixels.height : ℚ) / 2)

/-- Squared Euclidean distance between two points. -/
def distSq (p q : ℚ × ℚ) : ℚ := (p.1 - q.1) ^ 2 + (p.2 - q.2) ^ 2

/-- The gate test `distances[i, :] < track_max_dist` of the source, where
`distances[i, j]` is the Euclidean distance from the track's `last_center`
to the detection's center and `track_max_dist = last_size *
distance_threshold_factor`.  For a nonnegative squared distance `D`,
`sqrt D < r` holds iff `0 < r ∧ D < r^2`, which states the same test
without irrational square roots. -/
def gate (t : TrackState) (factor : ℚ) (d : Detection) : Bool :=
  decide (0 < t.last_size * factor ∧
    distSq t.last_center (detCenter d) < (t.last_size * factor) ^ 2)

/-- The loop over `possible_matches` for one track: scan the detections in
index order, keeping the strictly closest one that passes the gate and is
not already claimed by an earlier-processed track (`best_dist,
best_det_idx` of the source; comparing squared distances preserves every
strict comparison of the nonnegative distances). -/
def bestMatchAux (t : TrackState) (factor : ℚ) (claimed : List ℕ) :
    List Detection → ℕ → Option (ℚ × ℕ) → Option (ℚ × ℕ)
  | [], _, best => best
  | d :: rest, j, best =>
      let dsq := distSq t.last_center (detCenter d)
      let better : Bool :=
        gate t factor d && decide (j ∉ claimed) &&
          (match best with
           | none => true
           | some bd => decide (dsq < bd.1))
      if better then bestMatchAux t factor claimed rest (j + 1) (some (dsq, j))
      else bestMatchAux t factor claimed rest (j + 1) best

/-- The match selected for one track in one frame, if any. -/
def bestMatch (t : TrackState) (factor : ℚ) (dets : List Detection)
    (claimed : List ℕ) : Option ℕ :=
  (bestMatchAux t factor claimed dets 0 none).map Prod.snd

/-- The `for i, track_id in enumerate(track_ids)` matching pass: each
active track (in insertion order) picks its best detection; the chosen
index joins the claimed set seen by the tracks processed after it. -/
def assignFrameAux (factor : ℚ) (dets : List Detection) :
    List TrackState → List ℕ → List (Option ℕ)
  | [], _ => []
  | t :: rest, claimed =>
      let m := bestMatch t factor dets claimed
      m :: assignFrameAux factor dets rest (claimed ++ m.toList)

/-- Match assignment for all active tracks in one frame. -/
def assignFrame (tracks : List TrackState) (factor : ℚ) (dets : List Detection) :
    List (Option ℕ) :=
  assignFrameAux factor dets tracks []

/-- One frame of `_link_detections_into_tracks`: frames with no detections
are skipped; matched tracks append their detection and refresh
`last_center`/`last_size`; every unmatched detection spawns a new track
(in ascending index order). -/
def linkFrame (factor : ℚ) (tracks : List TrackState) (dets : List Detection) :
    List TrackState :=
  if dets.isEmpty then tracks
  else
    let assigns := assignFrame tracks factor dets
    let updated := (tracks.zip assigns).map (fun p =>
      match p.2 with
      | none => p.1
      | some j =>
          match dets[j]? with
          | none => p.1
          | some d => ⟨p.1.detections ++ [d], detCenter d, (d.box_pixels.width : ℚ)⟩)
    let matched := assigns.foldr (fun a acc => a.toList ++ acc) []
    let newTracks :=
      ((List.range dets.length).filter (fun j => decide (j ∉ matched))).map
        (fun j =>
          match dets[j]? with
          | none => ⟨[], (0, 0), 0⟩
          | some d => ⟨[d], detCenter d, (d.box_pixels.width : ℚ)⟩)
    updated ++ newTracks

/-- `_link_detections_into_tracks`: fold the frame pass over the grouped
per-frame detection buckets in increasing frame order. -/
def link_detections_into_tracks (factor : ℚ) (frames : List (List Detection)) :
    List TrackState :=
  frames.foldl (linkFrame factor) []

theorem bestMatchAux_gate (t : TrackState) (factor : ℚ) (claimed : List ℕ) :
    ∀ (l : List Detection) (j0 : ℕ) (best : Option (ℚ × ℕ)) (q : ℚ) (j : ℕ),
      bestMatchAux t factor claimed l j0 best = some (q, j) →
      best = some (q, j) ∨
        ∃ k d, l[k]? = some d ∧ j = j0 + k ∧ gate t factor d = true ∧
          q = distSq t.last_center (detCenter d) := by
  intro l
  induction l with
  | nil =>
      intro j0 best q j h
      exact Or.inl h
  | cons d rest ih =>
      intro j0 best q j h
      simp only [bestMatchAux] at h
      split at h
      next hb =>
        have hg : gate t factor d = true := by
          simp only [Bool.and_eq_true] at hb
          exact hb.1.1
        rcases ih (j0 + 1) _ q j h with hbest | ⟨k, d', hk, hj, hg', hq⟩
        · injection hbest with hbest2
          right
          refine ⟨0, d, by simp, ?_, hg, ?_⟩
          · have hsnd := congrArg Prod.snd hbest2
            simpa using hsnd.symm
          · have hfst := congrArg Prod.fst hbest2
            simpa using hfst.symm
        · right
          exact ⟨k + 1, d', by simpa using hk, by omega, hg', hq⟩
      next hb =>
        rcases ih (j0 + 1) best q j h with hbest | ⟨k, d', hk, hj, hg', hq⟩
        · exact Or.inl hbest
        · right
          exact ⟨k + 1, d', by simpa using hk, by omega, hg', hq⟩

theorem bestMatch_gate (t : TrackState) (factor : ℚ) (dets : List Detection)
    (claimed : List ℕ) (j : ℕ) (h : bestMatch t factor dets claimed = some j) :
    ∃ d, dets[j]? = some d ∧ gate t factor d = true := by
  rw [bestMatch] at h
  match hres : bestMatchAux t factor claimed dets 0 none with
  | none => rw [hres] at h; cases h
  | some (q, j') =>
      rw [hres] at h
      have hj : j' = j := by simpa using h
      subst hj
      rcases bestMatchAux_gate t factor claimed dets 0 none q j' hres with hc | hc
      · cases hc
      · obtain ⟨k, d, hk, hj, hg, _⟩ := hc
        exact ⟨d, by rw [hj]; simpa using hk, hg⟩

theorem assignFrameAux_spec (factor : ℚ) (dets : List Detection) :
    ∀ (tracks : List TrackState) (claimed : List ℕ) (i : ℕ) (m : Option ℕ),
      (assignFrameAux factor dets tracks claimed)[i]? = some m →
      ∃ t c, tracks[i]? = some t ∧ m = bestMatch t factor dets c := by
  intro tracks
  induction tracks with
  | nil =>
      intro claimed i m h
      simp [assignFrameAux] at h
  | cons t rest ih =>
      intro claimed i m h
      rw [assignFrameAux] at h
      cases i with
      | zero =>
          simp only [List.getElem?_cons_zero, Option.some.injEq] at h
          exact ⟨t, claimed, by simp, h.symm⟩
      | succ i2 =>
          simp only [List.getElem?_cons_succ] at h
          obtain ⟨t', c, ht', hm⟩ := ih _ i2 m h
          exact ⟨t', c, by simpa using ht', hm⟩

/-- C7: during linking, a detection whose center's Euclidean distance from
a track's `last_center` exceeds `last_size * distance_threshold_factor`
is never matched to that track, regardless of every other track and
detection.  (Exceeding the radius `r` is stated without square roots:
either `r < 0`, or `r^2` is below the squared distance.) -/
theorem gating_threshold (tracks : List TrackState) (factor : ℚ)
    (dets : List Detection) (i j : ℕ) (t : TrackState) (d : Detection)
    (ht : tracks[i]? = some t) (hd : dets[j]? = some d)
    (hfar : t.last_size * factor < 0 ∨
      (t.last_size * factor) ^ 2 < distSq t.last_center (detCenter d)) :
    (assignFrame tracks factor dets)[i]? ≠ some (some j) := by
  intro hc
  obtain ⟨t', c, ht', hm⟩ := assignFrameAux_spec factor dets tracks [] i (some j) hc
  rw [ht] at ht'
  have htt : t = t' := by injection ht'
  subst htt
  obtain ⟨d', hd', hg⟩ := bestMatch_gate t factor dets c j hm.symm
  rw [hd] at hd'
  have hdd : d = d' := by injection hd'
  subst hdd
  rw [gate, decide_eq_true_eq] at hg
  rcases hfar with h | h
  · linarith [hg.1]
  · linarith [hg.2]

/-- Witness for C7: one empty track at the origin with radius 10, one
detection centered at (101, 1): squared distance 10202 > 100, so index 0
is never assigned. -/
theorem gating_threshold_witness :
    (assignFrame [⟨[], (0, 0), 10⟩] 1 [⟨0, ⟨100, 0, 2, 2⟩, 1⟩])[0]? ≠
      some (some 0) :=
  gating_threshold [⟨[], (0, 0), 10⟩] 1 [⟨0, ⟨100, 0, 2, 2⟩, 1⟩] 0 0
    ⟨[], (0, 0), 10⟩ ⟨0, ⟨100, 0, 2, 2⟩, 1⟩ rfl rfl
    (Or.inr (by norm_num [distSq, detCenter]))

/-! Embedding of the staged orchestrator (`src/pipeline.py`).  Cache
contents and the external stage computations (scene detection, the
sampling/detection loop of step 2, and the face-track branch, whose
service source file is not part of the repository) are supplied as an
explicit environment.  An events list records which stage computations
ran and which cache saves happened; a raised `TypeError` is an
`Except.error`. -/

/-- One scene dict with its inclusive frame range. -/
structure Scene where
  start_frame : ℤ
  end_frame : ℤ
deriving Repr, DecidableEq

/-- The scouting dict with its two keys `faces` and `persons`. -/
structure ScoutingData where
  faces : List Detection
  persons : List Detection
deriving Repr, DecidableEq

/-- The four deterministic cache paths of `_initialize_paths`. -/
inductive CacheKey where
  | scenes
  | scouting
  | faceTracks
  | personTracks
deriving Repr, DecidableEq

/-- Observable orchestrator actions: a stage computation ran, or a result
was saved to the cache. -/
inductive PipelineEvent where
  | computed (k : CacheKey)
  | saved (k : CacheKey)
deriving Repr, DecidableEq

/-- The positional parameters of `PersonTrackProcessorService.run`
(`self` excluded); none of them has a default value. -/
inductive ParamName where
  | sparse_detections
  | scene_start_frame
  | scene_end_frame
  | total_sampled_frames
  | output_modes
deriving Repr, DecidableEq

/-- A raised Python exception: `TypeError: ... missing required positional
argument(s)`, carrying the unbound parameters. -/
inductive PyError where
  | typeErrorMissingArgs (missing : List ParamName)
deriving Repr, DecidableEq

/-- The declared parameter list of `PersonTrackProcessorService.run`
(line 35 of the service). -/
def personTrackRunParams : List ParamName :=
  [ParamName.sparse_detections, ParamName.scene_start_frame,
   ParamName.scene_end_frame, ParamName.total_sampled_frames,
   ParamName.output_modes]

/-- The call at pipeline.py line 188,
`track_processor.run(detections_in_scene, start_frame, end_frame,
output_modes)`, passes four positional arguments. -/
def generateTracksCallArgCount : ℕ := 4

/-- Python positional-argument binding: binding `nargs` arguments to
`params` succeeds iff no required parameter stays unbound; otherwise the
call raises before the function body runs. -/
def bindCall (params : List ParamName) (nargs : ℕ) : Except PyError Unit :=
  match params.drop nargs with
  | [] => Except.ok ()
  | p :: rest => Except.error (PyError.typeErrorMissingArgs (p :: rest))

/-- `_generate_tracks_for_type` for the person processor: loop over the
scene list and call `run` with four positional arguments.  With at least
one scene, the binding of the first call fails (five required parameters,
four arguments) and the `TypeError` propagates; with no scenes the loop
body never runs and the empty list is returned. -/
def generate_tracks_for_type (scenes : List Scene) :
    Except PyError (List TrackOutput) :=
  match scenes with
  | [] => Except.ok []
  | _ :: _ =>
      match bindCall personTrackRunParams generateTracksCallArgCount with
      | Except.error e => Except.error e
      | Except.ok _ => Except.ok []

/-- Modelled from the spec: the per-scene record shape of section 6 that
the presentation layer expects the orchestrator to return (`start_frame`,
`end_frame`, and a detections map with `face_tracks`/`person_tracks`
lists).  The source never constructs such a record: `run` returns
`self.final_formatted_data`, which no step assigns. -/
structure SceneRecord where
  start_frame : ℤ
  end_frame : ℤ
  face_tracks : List TrackOutput
  person_tracks : List TrackOutput
deriving Repr, DecidableEq

/-- Environment of one pipeline run: the cache contents at the deterministic
paths, plus the results of the external stage computations.
`faceTracksResult` is the outcome of the face-track branch of step 3,
whose service source (`face_track_processor_service.py`) is not in the
repository, so its behavior is left abstract. -/
structure PipelineEnv where
  cachedScenes : Option (List Scene)
  cachedScouting : Option ScoutingData
  cachedFaceTracks : Option (List TrackOutput)
  cachedPersonTracks : Option (List TrackOutput)
  sceneDetectorResult : List Scene
  scoutingResult : ScoutingData
  faceTracksResult : Except PyError (List TrackOutput)

/-- The instance attributes of `ReframerPipeline` holding data between the
stages, plus the observable event log. -/
structure PipelineState where
  scene_list_data : Option (List Scene)
  scouting_data : Option ScoutingData
  face_tracks_data : Option (List TrackOutput)
  person_tracks_data : Option (List TrackOutput)
  final_formatted_data : Option (List SceneRecord)
  events : List PipelineEvent

/-- `_initialize_data_holders`: every holder starts as `None`. -/
def initState : PipelineState := ⟨none, none, none, none, none, []⟩

/-- Python truthiness of an optional list: `None` and `[]` are falsy. -/
def listTruthy {α : Type} (x : Option (List α)) : Bool :=
  match x with
  | none => false
  | some l => !l.isEmpty

/-- Python truthiness of the optional scouting dict: the dict always
carries its two keys, so any present dict is truthy; `None` is falsy. -/
def scoutingTruthy (x : Option ScoutingData) : Bool := x.isSome

/-- The scouting dict `{"faces": [], "persons": []}` produced by the
short-circuit of step 2. -/
def emptyScouting : ScoutingData := ⟨[], []⟩

/-- `_step_1_detect_scenes`: adopt a truthy cached value; otherwise run
the scene detector and save its result. -/
def step_1_detect_scenes (env : PipelineEnv) (st : PipelineState) : PipelineState :=
  if listTruthy env.cachedScenes then
    { st with scene_list_data := env.cachedScenes }
  else
    { st with scene_list_data := some env.sceneDetectorResult,
              events := st.events ++ [PipelineEvent.computed CacheKey.scenes,
                PipelineEvent.saved CacheKey.scenes] }

/-- `_step_2_run_scouting`: adopt a truthy cached dict; otherwise, with a
falsy scene list, short-circuit to the empty scouting dict and return
(no computation, no save); otherwise run the sampling/detection loop and
save its result. -/
def step_2_run_scouting (env : PipelineEnv) (st : PipelineState) : PipelineState :=
  if scoutingTruthy env.cachedScouting then
    { st with scouting_data := env.cachedScouting }
  else if !(listTruthy st.scene_list_data) then
    { st with scouting_data := some emptyScouting }
  else
    { st with scouting_data := some env.scoutingResult,
              events := st.events ++ [PipelineEvent.computed CacheKey.scouting,
                PipelineEvent.saved CacheKey.scouting] }

/-- `_step_3_process_tracks`: with falsy scouting data or a falsy scene
list, short-circuit both track holders to `[]` and return (no save);
otherwise process faces (cache hit, or the abstract face branch) and then
persons (cache hit, or `_generate_tracks_for_type`, whose call raises). -/
def step_3_process_tracks (env : PipelineEnv) (st : PipelineState) :
    Except PyError PipelineState :=
  if !(scoutingTruthy st.scouting_data) || !(listTruthy st.scene_list_data) then
    Except.ok { st with face_tracks_data := some [], person_tracks_data := some [] }
  else
    match
      (if listTruthy env.cachedFaceTracks then
        Except.ok (env.cachedFaceTracks.getD [], st.events)
      else
        match env.faceTracksResult with
        | Except.error e => Except.error e
        | Except.ok ft =>
            Except.ok (ft, st.events ++ [PipelineEvent.computed CacheKey.faceTracks,
              PipelineEvent.saved CacheKey.faceTracks])) with
    | Except.error e => Except.error e
    | Except.ok (ft, ev1) =>
        if listTruthy env.cachedPersonTracks then
          Except.ok { st with face_tracks_data := some ft,
                              person_tracks_data := env.cachedPersonTracks,
                              events := ev1 }
        else
          match generate_tracks_for_type (st.scene_list_data.getD []) with
          | Except.error e => Except.error e
          | Except.ok pt =>
              Except.ok { st with face_tracks_data := some ft,
                                  person_tracks_data := some pt,
                                  events := ev1 ++
                                    [PipelineEvent.computed CacheKey.personTracks,
                                     PipelineEvent.saved CacheKey.personTracks] }

/-- `ReframerPipeline.run`: the three steps in order, then
`return self.final_formatted_data` — which `_initialize_data_holders` set
to `None` and which no step assigns. -/
def pipelineRun (env : PipelineEnv) :
    Except PyError (Option (List SceneRecord) × List PipelineEvent) :=
  let st1 := step_1_detect_scenes env initState
  let st2 := step_2_run_scouting env st1
  match step_3_process_tracks env st2 with
  | Except.error e => Except.error e
  | Except.ok st3 => Except.ok (st3.final_formatted_data, st3.events)

theorem step_1_preserves_final (env : PipelineEnv) (st : PipelineState) :
    (step_1_detect_scenes env st).final_formatted_data = st.final_formatted_data := by
  rw [step_1_detect_scenes]
  split <;> rfl

theorem step_2_preserves_final (env : PipelineEnv) (st : PipelineState) :
    (step_2_run_scouting env st).final_formatted_data = st.final_formatted_data := by
  rw [step_2_run_scouting]
  split
  · rfl
  · split <;> rfl

theorem step_3_preserves_final (env : PipelineEnv) (st st3 : PipelineState)
    (h : step_3_process_tracks env st = Except.ok st3) :
    st3.final_formatted_data = st.final_formatted_data := by
  rw [step_3_process_tracks] at h
  split at h
  · injection h with h2
    rw [← h2]
  · split at h
    · cases h
    · split at h
      · injection h with h2
        rw [← h2]
      · split at h
        · cases h
        · injection h with h2
          rw [← h2]

/-- C1 (code bug): whenever `ReframerPipeline.run` completes, the value it
returns is `None` — the `final_formatted_data` holder initialized by
`_initialize_data_holders` and assigned by no step — never the sequence of
per-scene records that its own docstring and the spec describe. -/
theorem pipeline_run_returns_none (env : PipelineEnv)
    (v : Option (List SceneRecord)) (ev : List PipelineEvent)
    (h : pipelineRun env = Except.ok (v, ev)) : v = none := by
  rw [pipelineRun] at h
  split at h
  · cases h
  · next st3 heq =>
      injection h with h2
      have hv : v = st3.final_formatted_data := (congrArg Prod.fst h2).symm
      rw [hv, step_3_preserves_final env _ st3 heq, step_2_preserves_final,
        step_1_preserves_final]
      rfl

/-- A run in which every stage is already cached, so the pipeline completes
without reaching the arity bug of the track stage. -/
def envAllCached : PipelineEnv :=
  ⟨some [⟨0, 9⟩], some ⟨[], []⟩, some [⟨1, none, none⟩], some [⟨1, none, none⟩],
   [], ⟨[], []⟩, Except.ok []⟩

/-- Witness for C1: against `envAllCached` the run completes and returns
`None`. -/
theorem pipeline_run_returns_none_witness :
    pipelineRun envAllCached = Except.ok (none, []) ∧
      (none : Option (List SceneRecord)) = none :=
  ⟨rfl, pipeline_run_returns_none envAllCached none [] rfl⟩

/-- A run in which nothing is cached and the scene detector finds no
scenes. -/
def envNoScenes : PipelineEnv := ⟨none, none, none, none, [], ⟨[], []⟩, Except.ok []⟩

/-- C8 counterexample: with no scenes detected, step 2 short-circuits to the
empty scouting dict but records nothing — the event log holds only step 1's
compute/save, refuting "still records that empty result". -/
theorem short_circuit_no_save_cx :
    (step_2_run_scouting envNoScenes
        (step_1_detect_scenes envNoScenes initState)).scouting_data =
      some emptyScouting ∧
    (step_2_run_scouting envNoScenes
        (step_1_detect_scenes envNoScenes initState)).events =
      [PipelineEvent.computed CacheKey.scenes, PipelineEvent.saved CacheKey.scenes] ∧
    PipelineEvent.saved CacheKey.scouting ∉
      (step_2_run_scouting envNoScenes
        (step_1_detect_scenes envNoScenes initState)).events ∧
    PipelineEvent.computed CacheKey.scouting ∉
      (step_2_run_scouting envNoScenes
        (step_1_detect_scenes envNoScenes initState)).events :=
  ⟨rfl, rfl, by decide, by decide⟩

/-- C8 (amended): a stage with no meaningful upstream input short-circuits
to an empty result without invoking downstream computation — but it does
NOT record that empty result in the cache: with a cache miss and a falsy
scene list, step 2 stores the empty scouting dict and emits no computed or
saved event, and step 3 then short-circuits both track holders to `[]`,
also without any event. -/
theorem short_circuit_empty_no_save (env : PipelineEnv) (st : PipelineState)
    (hmiss : scoutingTruthy env.cachedScouting = false)
    (hscenes : listTruthy st.scene_list_data = false) :
    (step_2_run_scouting env st).scouting_data = some emptyScouting ∧
    (step_2_run_scouting env st).events = st.events ∧
    ∃ st3, step_3_process_tracks env (step_2_run_scouting env st) = Except.ok st3 ∧
      st3.face_tracks_data = some [] ∧ st3.person_tracks_data = some [] ∧
      st3.events = st.events := by
  have h2 : step_2_run_scouting env st =
      { st with scouting_data := some emptyScouting } := by
    rw [step_2_run_scouting, hmiss]
    simp [hscenes]
  refine ⟨by rw [h2], by rw [h2], ?_⟩
  rw [h2, step_3_process_tracks]
  simp only [hscenes]
  simp

/-- Witness for C8 (amended) in the concrete `envNoScenes` run. -/
theorem short_circuit_empty_no_save_witness :
    (step_2_run_scouting envNoScenes
        (step_1_detect_scenes envNoScenes initState)).scouting_data =
      some emptyScouting ∧
    (step_2_run_scouting envNoScenes
        (step_1_detect_scenes envNoScenes initState)).events =
      (step_1_detect_scenes envNoScenes initState).events ∧
    ∃ st3, step_3_process_tracks envNoScenes
        (step_2_run_scouting envNoScenes
          (step_1_detect_scenes envNoScenes initState)) = Except.ok st3 ∧
      st3.face_tracks_data = some [] ∧ st3.person_tracks_data = some [] ∧
      st3.events = (step_1_detect_scenes envNoScenes initState).events :=
  short_circuit_empty_no_save envNoScenes
    (step_1_detect_scenes envNoScenes initState) rfl rfl

/-- C9: `_generate_tracks_for_type` passes four positional arguments to
`PersonTrackProcessorService.run`, which declares five required
parameters, so with a non-empty scene list the first call raises
`TypeError` for the unbound `output_modes` and the track stage fails
instead of producing tracks — here shown with truthy scouting, a hit face
cache and a missed person cache, where step 3 propagates the error. -/
theorem track_stage_arity_error (scenes : List Scene) (hne : scenes ≠ [])
    (env : PipelineEnv) (st : PipelineState)
    (hsc : st.scene_list_data = some scenes)
    (hscout : scoutingTruthy st.scouting_data = true)
    (hfc : listTruthy env.cachedFaceTracks = true)
    (hpc : listTruthy env.cachedPersonTracks = false) :
    generate_tracks_for_type scenes =
      Except.error (PyError.typeErrorMissingArgs [ParamName.output_modes]) ∧
    step_3_process_tracks env st =
      Except.error (PyError.typeErrorMissingArgs [ParamName.output_modes]) := by
  have hgen : generate_tracks_for_type scenes =
      Except.error (PyError.typeErrorMissingArgs [ParamName.output_modes]) := by
    match scenes, hne with
    | sc :: rest, _ => rfl
  refine ⟨hgen, ?_⟩
  have hlt : listTruthy (some scenes) = true := by
    cases scenes with
    | nil => exact absurd rfl hne
    | cons a l => rfl
  rw [step_3_process_tracks]
  simp [hscout, hlt, hfc, hpc, hsc, hgen]

/-- Environment with a hit face-track cache and a missed person-track
cache. -/
def envFaceCached : PipelineEnv :=
  ⟨some [⟨0, 9⟩], some emptyScouting, some [⟨1, none, none⟩], none,
   [], emptyScouting, Except.ok []⟩

/-- The pipeline state after steps 1 and 2 against `envFaceCached`. -/
def stReady : PipelineState :=
  step_2_run_scouting envFaceCached (step_1_detect_scenes envFaceCached initState)

/-- Witness for C9 at a single-scene run. -/
theorem track_stage_arity_error_witness :
    generate_tracks_for_type [⟨0, 9⟩] =
      Except.error (PyError.typeErrorMissingArgs [ParamName.output_modes]) ∧
    step_3_process_tracks envFaceCached stReady =
      Except.error (PyError.typeErrorMissingArgs [ParamName.output_modes]) :=
  track_stage_arity_error [⟨0, 9⟩] (by decide) envFaceCached stReady rfl rfl rfl rfl

end Reframer
